import Mathlib

/-!
Verification of the numerical core of the visualize-zeta repository: the
ComplexNumber arithmetic class, the Dirichlet-eta based zeta evaluator, and
the number-theoretic approximation curves of primes.ts.

JavaScript double-precision arithmetic on finite values is idealised as exact
real arithmetic.  For the error-handling claims about NaN/Infinity
propagation, a second embedding tracks the IEEE degeneracy classes (finite
value, signed infinity, NaN) explicitly; finite-value arithmetic in that
embedding is again exact (overflow is not modelled, since every degeneracy
claimed by the specification originates from division by zero).
-/

namespace VisualizeZeta

/-- The ComplexNumber class of zeta.ts: a pair of doubles, idealised as reals. -/
structure ComplexNumber where
  re : ℝ
  im : ℝ

/-- Componentwise sum, as in the add method. -/
def ComplexNumber.add (a c : ComplexNumber) : ComplexNumber :=
  ⟨a.re + c.re, a.im + c.im⟩

/-- Componentwise difference, as in the sub method. -/
def ComplexNumber.sub (a c : ComplexNumber) : ComplexNumber :=
  ⟨a.re - c.re, a.im - c.im⟩

/-- Standard complex product, as in the multiply method. -/
def ComplexNumber.multiply (a c : ComplexNumber) : ComplexNumber :=
  ⟨a.re * c.re - a.im * c.im, a.re * c.im + a.im * c.re⟩

/-- Real-base/complex-exponent power, as in the static pow method:
base^exponent = exp(exponent * ln base) expanded into polar form. -/
noncomputable def ComplexNumber.pow (base : ℝ) (exponent : ComplexNumber) : ComplexNumber :=
  let lnBase := Real.log base
  let a := exponent.re * lnBase
  let b := exponent.im * lnBase
  let expA := Real.exp a
  ⟨expA * Real.cos b, expA * Real.sin b⟩

/-- Complex reciprocal, as in the inv method: (re/d, -im/d) with
d = re^2 + im^2, computed with no guard on the input. -/
noncomputable def ComplexNumber.inv (a : ComplexNumber) : ComplexNumber :=
  let denom := a.re * a.re + a.im * a.im
  ⟨a.re / denom, -a.im / denom⟩

/-- The accumulation loop of the zeta function of zeta.ts: etaSum s m is the
value of the accumulator after the iterations n = 1 .. m, each term
1/n^s added for even n-1 and subtracted for odd n-1, in increasing order
of n starting from (0, 0). -/
noncomputable def etaSum (s : ComplexNumber) : ℕ → ComplexNumber
  | 0 => ⟨0, 0⟩
  | m + 1 =>
    let n := m + 1
    let term := (ComplexNumber.pow (n : ℝ) s).inv
    if (n - 1) % 2 = 1 then (etaSum s m).sub term else (etaSum s m).add term

/-- The zeta function of zeta.ts: the truncated Dirichlet eta series divided by
1 - 2^(1-s) through multiplication by the reciprocal of the denominator. -/
noncomputable def zeta (s : ComplexNumber) (terms : ℕ) : ComplexNumber :=
  let oneMinusS : ComplexNumber := ⟨1 - s.re, -s.im⟩
  let twoPow := ComplexNumber.pow 2 oneMinusS
  let denominator := (⟨1, 0⟩ : ComplexNumber).sub twoPow
  (etaSum s terms).multiply denominator.inv

/-- The alternating partial sum as worded by the specification for claim C1:
the term for index n is added when n is odd and subtracted when n is even,
accumulated in increasing index order starting from (0, 0).  This definition
follows the wording of the specification and is compared against the
source-derived etaSum. -/
noncomputable def etaSpec (s : ComplexNumber) : ℕ → ComplexNumber
  | 0 => ⟨0, 0⟩
  | m + 1 =>
    let n := m + 1
    let term := (ComplexNumber.pow (n : ℝ) s).inv
    if Odd n then (etaSpec s m).add term else (etaSpec s m).sub term

/-- IEEE-style value classes of a JavaScript number: a finite double
(idealised as an exact real), a signed infinity, or NaN.  Signed zero and
overflow of finite operations are not modelled; the degeneracies relevant to
the error-handling claims all arise from division by zero. -/
inductive FPVal where
  | fin (x : ℝ)
  | inf (pos : Bool)
  | nan

/-- IEEE negation on the degeneracy-tracking values. -/
def FPVal.neg : FPVal → FPVal
  | fin x => fin (-x)
  | inf p => inf (!p)
  | nan => nan

/-- IEEE addition: NaN absorbs, infinities of opposite sign give NaN. -/
def FPVal.add : FPVal → FPVal → FPVal
  | nan, _ => nan
  | _, nan => nan
  | inf p, inf q => if p = q then inf p else nan
  | inf p, fin _ => inf p
  | fin _, inf q => inf q
  | fin x, fin y => fin (x + y)

/-- IEEE subtraction is addition of the negation. -/
def FPVal.sub (a b : FPVal) : FPVal := a.add b.neg

/-- IEEE multiplication: NaN absorbs, zero times infinity gives NaN. -/
noncomputable def FPVal.mul : FPVal → FPVal → FPVal
  | nan, _ => nan
  | _, nan => nan
  | inf p, inf q => inf (p == q)
  | inf p, fin x => if x = 0 then nan else if 0 < x then inf p else inf (!p)
  | fin x, inf q => if x = 0 then nan else if 0 < x then inf q else inf (!q)
  | fin x, fin y => fin (x * y)

/-- IEEE division: NaN absorbs, 0/0 and inf/inf give NaN, a nonzero finite
value divided by zero gives a signed infinity. -/
noncomputable def FPVal.div : FPVal → FPVal → FPVal
  | nan, _ => nan
  | _, nan => nan
  | inf _, inf _ => nan
  | inf p, fin y => if 0 ≤ y then inf p else inf (!p)
  | fin _, inf _ => fin 0
  | fin x, fin y =>
    if y = 0 then (if x = 0 then nan else if 0 < x then inf true else inf false)
    else fin (x / y)

/-- Math.exp on the degeneracy-tracking values. -/
noncomputable def FPVal.exp : FPVal → FPVal
  | fin x => fin (Real.exp x)
  | inf p => if p then inf true else fin 0
  | nan => nan

/-- Math.cos on the degeneracy-tracking values (NaN at infinities). -/
noncomputable def FPVal.cos : FPVal → FPVal
  | fin x => fin (Real.cos x)
  | inf _ => nan
  | nan => nan

/-- Math.sin on the degeneracy-tracking values (NaN at infinities). -/
noncomputable def FPVal.sin : FPVal → FPVal
  | fin x => fin (Real.sin x)
  | inf _ => nan
  | nan => nan

/-- The ComplexNumber class over degeneracy-tracking components. -/
structure ComplexFP where
  re : FPVal
  im : FPVal

/-- The add method over degeneracy-tracking components. -/
def ComplexFP.add (a c : ComplexFP) : ComplexFP :=
  ⟨a.re.add c.re, a.im.add c.im⟩

/-- The sub method over degeneracy-tracking components. -/
def ComplexFP.sub (a c : ComplexFP) : ComplexFP :=
  ⟨a.re.sub c.re, a.im.sub c.im⟩

/-- The multiply method over degeneracy-tracking components. -/
noncomputable def ComplexFP.multiply (a c : ComplexFP) : ComplexFP :=
  ⟨(a.re.mul c.re).sub (a.im.mul c.im), (a.re.mul c.im).add (a.im.mul c.re)⟩

/-- The static pow method over degeneracy-tracking components; the base at
every call site is a positive integer constant, so Math.log(base) is finite. -/
noncomputable def ComplexFP.pow (base : ℝ) (exponent : ComplexFP) : ComplexFP :=
  let lnBase := FPVal.fin (Real.log base)
  let a := exponent.re.mul lnBase
  let b := exponent.im.mul lnBase
  let expA := a.exp
  ⟨expA.mul b.cos, expA.mul b.sin⟩

/-- The inv method over degeneracy-tracking components: (re/d, -im/d) with
d = re*re + im*im, no guard on the input. -/
noncomputable def ComplexFP.inv (a : ComplexFP) : ComplexFP :=
  let denom := (a.re.mul a.re).add (a.im.mul a.im)
  ⟨a.re.div denom, a.im.neg.div denom⟩

/-- The denominator 1 - 2^(1-s) computed by the zeta function of zeta.ts,
over degeneracy-tracking components. -/
noncomputable def zetaDenominatorFP (s : ComplexFP) : ComplexFP :=
  let oneMinusS : ComplexFP := ⟨(FPVal.fin 1).sub s.re, s.im.neg⟩
  let twoPow := ComplexFP.pow 2 oneMinusS
  (⟨FPVal.fin 1, FPVal.fin 0⟩ : ComplexFP).sub twoPow

/-- The eta accumulation loop of the zeta function, over degeneracy-tracking
components. -/
noncomputable def etaSumFP (s : ComplexFP) : ℕ → ComplexFP
  | 0 => ⟨FPVal.fin 0, FPVal.fin 0⟩
  | m + 1 =>
    let n := m + 1
    let term := (ComplexFP.pow (n : ℝ) s).inv
    if (n - 1) % 2 = 1 then (etaSumFP s m).sub term else (etaSumFP s m).add term

/-- The zeta function of zeta.ts over degeneracy-tracking components. -/
noncomputable def zetaFP (s : ComplexFP) (terms : ℕ) : ComplexFP :=
  (etaSumFP s terms).multiply (zetaDenominatorFP s).inv

/-- The trial-division primality test of primes.ts.  In exact arithmetic the
loop condition i <= Math.sqrt(num) ranges i over 2 <= i <= Nat.sqrt num. -/
def isPrime (num : ℕ) : Bool :=
  if num < 2 then false
  else (List.range' 2 (Nat.sqrt num - 1)).all fun i => num % i != 0

/-- The body of the step-point loop of primes.ts: given the remaining primes,
the x-coordinate of the last emitted point and the running count, emit a
horizontal point (p, count) whenever p exceeds the last x, then the jump
point (p, count + 1). -/
def stepPointsAux : List ℕ → ℕ → ℕ → List (ℕ × ℕ)
  | [], _, _ => []
  | p :: rest, lastX, count =>
    (if lastX < p then [(p, count)] else []) ++
      (p, count + 1) :: stepPointsAux rest p (count + 1)

/-- The prime-counting step construction of primes.ts: the initial point
(0, 0), the loop over the primes, and the final horizontal point at the
upper bound with the final count. -/
def primeCountingStep (primes : List ℕ) (upperBound : ℕ) : List (ℕ × ℕ) :=
  ((0, 0) :: stepPointsAux primes 0 0) ++ [(upperBound, primes.length)]

/-- A per-ordinate explicit-formula wave term of primes.ts:
-(sqrt x / |gamma|) * sin(gamma * ln x). -/
noncomputable def explicitFormulaWave (x gamma : ℝ) : ℝ :=
  let amp := Real.sqrt x / |gamma|
  let phase := gamma * Real.log x
  let waveY := -amp * Real.sin phase
  waveY

/-- The combined real correction used per positive ordinate in the
Riemann-sum reconstruction of primes.ts: -2 * (sqrt x / gamma) * sin(gamma * ln x). -/
noncomputable def pairedWave (x gamma : ℝ) : ℝ :=
  let amp := Real.sqrt x / gamma
  let phase := gamma * Real.log x
  let waveY := -2 * amp * Real.sin phase
  waveY

/-- The hard-coded positive zero ordinates of primes.ts. -/
noncomputable def gammas : List ℝ :=
  [14.13, 21.02, 25.01, 30.42, 32.93, 37.58, 40.91, 43.32, 48.00, 49.77]

/-- The fixed-step midpoint quadrature of 1/ln(t) of primes.ts (the Li(x)
curve loop, and the logarithmicIntegral operation of the specification):
the accumulated value after m steps of size step starting at frm, each step
adding (1 / ln(frm + step*i + step/2)) * step. -/
noncomputable def logarithmicIntegralVal (frm step : ℝ) : ℕ → ℝ
  | 0 => 0
  | i + 1 => logarithmicIntegralVal frm step i + 1 / Real.log (frm + step * i + step / 2) * step

/-- A fixed-step left-endpoint quadrature of 1/ln(t): the accumulated value
after m steps of size step starting at frm, each step adding
(1 / ln(frm + step*i)) * step.  This is the quadrature the inner loop of the
Riemann-sum reconstruction of primes.ts actually performs. -/
noncomputable def logarithmicIntegralLeftVal (frm step : ℝ) : ℕ → ℝ
  | 0 => 0
  | i + 1 => logarithmicIntegralLeftVal frm step i + 1 / Real.log (frm + step * i) * step

/-- The inner Li accumulation of the Riemann-sum loop of primes.ts:
liVal += (1 / Math.log(t)) * 0.1 for t = 2, 2.1, 2.2, ... -/
noncomputable def riemannLiVal : ℕ → ℝ
  | 0 => 0
  | i + 1 => riemannLiVal i + 1 / Real.log (2 + 0.1 * i) * 0.1

/-- The wave-correction accumulation of the Riemann-sum loop of primes.ts:
correction += -2 * (sqrt x / gamma) * sin(gamma * ln x) over the gammas list. -/
noncomputable def waveCorrection (x : ℝ) : ℝ :=
  gammas.foldl (fun c g => c + pairedWave x g) 0

/-- The value plotted by the Riemann-sum reconstruction of primes.ts at its
k-th sample point x = 2 + 0.2*k.  In exact real arithmetic the inner loop
for (t = 2; t < x; t += 0.1) runs exactly 2*k iterations with t = 2 + 0.1*i. -/
noncomputable def riemannSample (k : ℕ) : ℝ :=
  let x : ℝ := 2 + 0.2 * k
  riemannLiVal (2 * k) + waveCorrection x

/-! ### Helper lemmas -/

/-- NaN absorbs through multiplication from the right. -/
theorem FPVal.mul_nan (v : FPVal) : v.mul FPVal.nan = FPVal.nan := by
  cases v <;> rfl

/-- Multiplying any complex value by the all-NaN value yields the all-NaN value. -/
theorem ComplexFP.multiply_nan (a : ComplexFP) :
    a.multiply ⟨FPVal.nan, FPVal.nan⟩ = ⟨FPVal.nan, FPVal.nan⟩ := by
  unfold ComplexFP.multiply
  rw [FPVal.mul_nan, FPVal.mul_nan]
  rfl

/-- The unguarded reciprocal of the exact zero complex value has NaN in both
components: the denominator is 0 and both divisions are 0/0. -/
theorem ComplexFP.inv_zero :
    ComplexFP.inv ⟨FPVal.fin 0, FPVal.fin 0⟩ = ⟨FPVal.nan, FPVal.nan⟩ := by
  unfold ComplexFP.inv
  norm_num [FPVal.mul, FPVal.add, FPVal.neg, FPVal.div, ComplexFP.mk.injEq]

/-- At s = (1, 0) the denominator 1 - 2^(1-s) computed by zeta is exactly the
zero complex value. -/
theorem zetaDenominatorFP_at_one :
    zetaDenominatorFP ⟨FPVal.fin 1, FPVal.fin 0⟩ = ⟨FPVal.fin 0, FPVal.fin 0⟩ := by
  unfold zetaDenominatorFP ComplexFP.pow ComplexFP.sub
  norm_num [FPVal.sub, FPVal.add, FPVal.neg, FPVal.mul, FPVal.exp, FPVal.cos, FPVal.sin,
    Real.exp_zero, Real.cos_zero, Real.sin_zero, ComplexFP.mk.injEq]

/-- Correctness of the trial-division primality test for every input. -/
theorem isPrime_iff_prime (n : ℕ) : isPrime n = true ↔ n.Prime := by
  unfold isPrime
  by_cases h : n < 2
  · simp only [if_pos h, Bool.false_eq_true, false_iff]
    intro hp
    exact absurd hp.two_le (by omega)
  · push_neg at h
    have hs : 1 ≤ Nat.sqrt n := Nat.sqrt_pos.mpr (by omega)
    rw [if_neg (by omega : ¬ n < 2), List.all_eq_true, Nat.prime_def_le_sqrt]
    constructor
    · intro H
      refine ⟨h, fun m hm hms hdvd => ?_⟩
      have hmem : m ∈ List.range' 2 (Nat.sqrt n - 1) := by
        rw [List.mem_range'_1]
        omega
      have hbne := H m hmem
      rw [bne_iff_ne, ne_eq] at hbne
      exact hbne (Nat.dvd_iff_mod_eq_zero.mp hdvd)
    · rintro ⟨-, H⟩ i hi
      rw [List.mem_range'_1] at hi
      rw [bne_iff_ne, ne_eq]
      intro hmod
      exact H i (by omega) (by omega) (Nat.dvd_iff_mod_eq_zero.mpr hmod)

/-! ### Claim theorems -/

/-- C5: at s = (1, 0), for every terms >= 1, the denominator 1 - 2^(1-s) is
exactly the zero complex value, and both components of the zeta result are
NaN, propagated through the final multiplication rather than intercepted. -/
theorem zeta_at_one_nan (terms : ℕ) (h : 1 ≤ terms) :
    zetaDenominatorFP ⟨FPVal.fin 1, FPVal.fin 0⟩ = ⟨FPVal.fin 0, FPVal.fin 0⟩ ∧
      (zetaFP ⟨FPVal.fin 1, FPVal.fin 0⟩ terms).re = FPVal.nan ∧
      (zetaFP ⟨FPVal.fin 1, FPVal.fin 0⟩ terms).im = FPVal.nan := by
  have hz : zetaFP ⟨FPVal.fin 1, FPVal.fin 0⟩ terms = ⟨FPVal.nan, FPVal.nan⟩ := by
    unfold zetaFP
    rw [zetaDenominatorFP_at_one, ComplexFP.inv_zero, ComplexFP.multiply_nan]
  exact ⟨zetaDenominatorFP_at_one, by rw [hz], by rw [hz]⟩

/-- Witness for C5 at the concrete truncation count 200. -/
theorem zeta_at_one_nan_witness :
    zetaDenominatorFP ⟨FPVal.fin 1, FPVal.fin 0⟩ = ⟨FPVal.fin 0, FPVal.fin 0⟩ ∧
      (zetaFP ⟨FPVal.fin 1, FPVal.fin 0⟩ 200).re = FPVal.nan ∧
      (zetaFP ⟨FPVal.fin 1, FPVal.fin 0⟩ 200).im = FPVal.nan :=
  zeta_at_one_nan 200 (by norm_num)

/-- C6: inv returns (re/d, -im/d) with d = re*re + im*im for every input,
with no guard, and at the exact zero complex value both components of the
result are NaN. -/
theorem inverse_unguarded :
    (∀ a : ComplexFP,
        a.inv = ⟨a.re.div ((a.re.mul a.re).add (a.im.mul a.im)),
          a.im.neg.div ((a.re.mul a.re).add (a.im.mul a.im))⟩) ∧
      ComplexFP.inv ⟨FPVal.fin 0, FPVal.fin 0⟩ = ⟨FPVal.nan, FPVal.nan⟩ :=
  ⟨fun _ => rfl, ComplexFP.inv_zero⟩

/-- C7: isPrime agrees with primality on [0, 1000] (indeed everywhere), and in
particular at 2, 1 and 97. -/
theorem isPrime_correct :
    (∀ n : ℕ, n ≤ 1000 → (isPrime n = true ↔ n.Prime)) ∧
      isPrime 2 = true ∧ isPrime 1 = false ∧ isPrime 97 = true := by
  refine ⟨fun n _ => isPrime_iff_prime n, ?_, ?_, ?_⟩
  · rw [isPrime_iff_prime]
    norm_num
  · rfl
  · rw [isPrime_iff_prime]
    norm_num

/-- Witness for C7 at the concrete input 97. -/
theorem isPrime_correct_witness :
    97 ≤ 1000 ∧ (isPrime 97 = true ↔ Nat.Prime 97) :=
  ⟨by norm_num, isPrime_correct.1 97 (by norm_num)⟩

/-- Invariant of the step-point loop: prepending the last emitted point, the
emitted points together with the final point form a chain that is
non-decreasing in both coordinates, provided the remaining primes are sorted,
bounded by the upper bound, and at least the last emitted x. -/
theorem stepPointsAux_chain (ub : ℕ) (ps : List ℕ) :
    ∀ lastX count : ℕ, List.Sorted (· < ·) ps → (∀ p ∈ ps, p ≤ ub) →
      lastX ≤ ub → (∀ p ∈ ps, lastX ≤ p) →
      List.Chain' (fun a b : ℕ × ℕ => a.1 ≤ b.1 ∧ a.2 ≤ b.2)
        ((lastX, count) :: (stepPointsAux ps lastX count ++ [(ub, count + ps.length)])) := by
  induction ps with
  | nil =>
    intro lastX count _ _ hub _
    simp only [stepPointsAux, List.nil_append, List.length_nil, Nat.add_zero]
    exact List.chain'_cons.mpr ⟨⟨hub, le_refl count⟩, List.chain'_singleton _⟩
  | cons p rest ih =>
    intro lastX count hsort hle hub hge
    have hsort2 : List.Sorted (· < ·) rest := hsort.of_cons
    have hge2 : ∀ q ∈ rest, p ≤ q := fun q hq => le_of_lt (List.rel_of_sorted_cons hsort q hq)
    have hpub : p ≤ ub := hle p (List.mem_cons_self p rest)
    have htail := ih p (count + 1) hsort2 (fun q hq => hle q (List.mem_cons_of_mem p hq)) hpub hge2
    have hlen : count + (p :: rest).length = count + 1 + rest.length := by
      simp [List.length_cons]
      omega
    by_cases hpx : lastX < p
    · simp only [stepPointsAux, if_pos hpx, List.cons_append, List.singleton_append, hlen]
      exact List.chain'_cons.mpr ⟨⟨le_of_lt hpx, le_refl count⟩,
        List.chain'_cons.mpr ⟨⟨le_refl p, Nat.le_succ count⟩, htail⟩⟩
    · have hpeq : lastX ≤ p := hge p (List.mem_cons_self p rest)
      simp only [stepPointsAux, if_neg hpx, List.nil_append, List.cons_append, hlen]
      exact List.chain'_cons.mpr ⟨⟨hpeq, Nat.le_succ count⟩, htail⟩

/-- C8: for every sorted sequence of primes bounded by the upper bound, the
step sequence starts at (0, 0), is non-decreasing in both coordinates, and
ends with the horizontal point at the upper bound carrying the final count;
applied to the primes up to 30 it contains the point (29, 10). -/
theorem primeCountingStep_invariants :
    (∀ (primes : List ℕ) (ub : ℕ), List.Sorted (· < ·) primes → (∀ p ∈ primes, p ≤ ub) →
      (primeCountingStep primes ub).head? = some (0, 0) ∧
        List.Chain' (fun a b : ℕ × ℕ => a.1 ≤ b.1 ∧ a.2 ≤ b.2) (primeCountingStep primes ub) ∧
        (primeCountingStep primes ub).getLast? = some (ub, primes.length)) ∧
      (29, 10) ∈ primeCountingStep [2, 3, 5, 7, 11, 13, 17, 19, 23, 29] 30 := by
  constructor
  · intro primes ub hsort hle
    refine ⟨rfl, ?_, ?_⟩
    · have h := stepPointsAux_chain ub primes 0 0 hsort hle (Nat.zero_le ub)
        (fun p _ => Nat.zero_le p)
      simpa [primeCountingStep, List.cons_append] using h
    · unfold primeCountingStep
      exact List.getLast?_concat _
  · decide

/-- Witness for C8 at the concrete list of primes up to 30. -/
theorem primeCountingStep_witness :
    (primeCountingStep [2, 3, 5, 7, 11, 13, 17, 19, 23, 29] 30).head? = some (0, 0) ∧
      List.Chain' (fun a b : ℕ × ℕ => a.1 ≤ b.1 ∧ a.2 ≤ b.2)
        (primeCountingStep [2, 3, 5, 7, 11, 13, 17, 19, 23, 29] 30) ∧
      (primeCountingStep [2, 3, 5, 7, 11, 13, 17, 19, 23, 29] 30).getLast? = some (30, 10) :=
  primeCountingStep_invariants.1 [2, 3, 5, 7, 11, 13, 17, 19, 23, 29] 30 (by decide) (by decide)

/-- C3 counterexample: at x = exp 2 and gamma = pi/4, the sum of the
per-ordinate wave terms for the pair (gamma, -gamma) is 0, which differs from
the combined correction -2 (sqrt x / gamma) sin(gamma ln x). -/
theorem wave_pair_sum_ne_paired_correction :
    explicitFormulaWave (Real.exp 2) (Real.pi / 4) +
        explicitFormulaWave (Real.exp 2) (-(Real.pi / 4)) ≠
      pairedWave (Real.exp 2) (Real.pi / 4) := by
  have hlog : Real.log (Real.exp 2) = 2 := Real.log_exp 2
  have hq : (0:ℝ) < Real.pi / 4 := by positivity
  have habs : |Real.pi / 4| = Real.pi / 4 := abs_of_pos hq
  have habsn : |(-(Real.pi / 4))| = Real.pi / 4 := by rw [abs_neg, habs]
  have hsin : Real.sin (Real.pi / 4 * 2) = 1 := by
    rw [show Real.pi / 4 * 2 = Real.pi / 2 by ring]
    exact Real.sin_pi_div_two
  have hsq : 0 < Real.sqrt (Real.exp 2) := Real.sqrt_pos.mpr (Real.exp_pos 2)
  have hA : 0 < Real.sqrt (Real.exp 2) / (Real.pi / 4) := div_pos hsq hq
  simp only [explicitFormulaWave, pairedWave, hlog, habs, habsn]
  rw [show -(Real.pi / 4) * 2 = -(Real.pi / 4 * 2) by ring, Real.sin_neg, hsin]
  intro h
  nlinarith [h, hA]

/-- C3 amended: for x >= 2 and gamma > 0 the per-ordinate wave terms of the
pair (gamma, -gamma) cancel to zero, while the combined correction used in
the Riemann-sum reconstruction equals twice the single positive-ordinate wave
term. -/
theorem wave_pair_cancellation (x gamma : ℝ) (hx : 2 ≤ x) (hg : 0 < gamma) :
    explicitFormulaWave x gamma + explicitFormulaWave x (-gamma) = 0 ∧
      pairedWave x gamma = 2 * explicitFormulaWave x gamma := by
  have habs : |gamma| = gamma := abs_of_pos hg
  have habsn : |(-gamma)| = gamma := by rw [abs_neg, habs]
  simp only [explicitFormulaWave, pairedWave, habs, habsn, neg_mul, Real.sin_neg]
  constructor <;> ring

/-- Witness for the amended C3 at x = 2, gamma = 1. -/
theorem wave_pair_cancellation_witness :
    explicitFormulaWave 2 1 + explicitFormulaWave 2 (-1) = 0 ∧
      pairedWave 2 1 = 2 * explicitFormulaWave 2 1 :=
  wave_pair_cancellation 2 1 (by norm_num) (by norm_num)

/-- C9: for from >= 2, to > from and step > 0, the midpoint quadrature
samples are strictly increasing in both the value and the x coordinate. -/
theorem logarithmicIntegral_mono (frm toLimit step : ℝ) (i j : ℕ) (hfrm : 2 ≤ frm)
    (hto : frm < toLimit) (hstep : 0 < step) (hij : i < j) :
    logarithmicIntegralVal frm step i < logarithmicIntegralVal frm step j ∧
      frm + step * (i : ℝ) < frm + step * (j : ℝ) := by
  have hterm : ∀ m : ℕ, 0 < 1 / Real.log (frm + step * m + step / 2) * step := by
    intro m
    have hm : (0:ℝ) ≤ step * m := by positivity
    have h1 : (1:ℝ) < frm + step * m + step / 2 := by linarith
    have hl := Real.log_pos h1
    positivity
  have hmono : StrictMono (logarithmicIntegralVal frm step) := by
    apply strictMono_nat_of_lt_succ
    intro m
    have heq : logarithmicIntegralVal frm step (m + 1) =
        logarithmicIntegralVal frm step m + 1 / Real.log (frm + step * m + step / 2) * step := rfl
    rw [heq]
    linarith [hterm m]
  refine ⟨hmono hij, ?_⟩
  have hcast : (i : ℝ) < (j : ℝ) := by exact_mod_cast hij
  nlinarith

/-- Witness for C9 at from = 2, to = 3, step = 1 and indices 0 < 1. -/
theorem logarithmicIntegral_mono_witness :
    logarithmicIntegralVal 2 1 0 < logarithmicIntegralVal 2 1 1 ∧
      (2:ℝ) + 1 * ((0:ℕ) : ℝ) < 2 + 1 * ((1:ℕ) : ℝ) :=
  logarithmicIntegral_mono 2 3 1 0 1 (by norm_num) (by norm_num) (by norm_num) (by norm_num)

/-- The wave-correction fold equals the sum of the paired wave terms over the
ordinate list. -/
theorem waveCorrection_eq_sum (x : ℝ) :
    waveCorrection x = (gammas.map fun g => pairedWave x g).sum := by
  have h : ∀ (l : List ℝ) (c : ℝ),
      l.foldl (fun c g => c + pairedWave x g) c = c + (l.map fun g => pairedWave x g).sum := by
    intro l
    induction l with
    | nil => intro c; simp
    | cons a t ih =>
      intro c
      simp only [List.foldl_cons, List.map_cons, List.sum_cons]
      rw [ih]
      ring
  unfold waveCorrection
  rw [h]
  simp

/-- The inner quadrature of the Riemann-sum loop is the left-endpoint
quadrature with start 2 and step 0.1. -/
theorem riemannLiVal_eq_left (m : ℕ) : riemannLiVal m = logarithmicIntegralLeftVal 2 0.1 m := by
  induction m with
  | zero => rfl
  | succ i ih =>
    have h1 : riemannLiVal (i + 1) = riemannLiVal i + 1 / Real.log (2 + 0.1 * i) * 0.1 := rfl
    have h2 : logarithmicIntegralLeftVal 2 0.1 (i + 1) =
        logarithmicIntegralLeftVal 2 0.1 i + 1 / Real.log (2 + 0.1 * i) * 0.1 := rfl
    rw [h1, h2, ih]

/-- C4 counterexample: at the sample point x = 2.2 (k = 1) the reconstruction
value differs from the midpoint quadrature value plus the wave corrections,
because the inner loop uses left endpoints. -/
theorem riemannSample_ne_midpoint :
    riemannSample 1 ≠
      logarithmicIntegralVal 2 0.1 2 + waveCorrection (2 + 0.2 * ((1:ℕ) : ℝ)) := by
  have hL2 : riemannLiVal 2 = 1 / Real.log 2 * 0.1 + 1 / Real.log 2.1 * 0.1 := by
    have e2 : riemannLiVal 2 = riemannLiVal 1 + 1 / Real.log (2 + 0.1 * ((1:ℕ) : ℝ)) * 0.1 := rfl
    have e1 : riemannLiVal 1 = riemannLiVal 0 + 1 / Real.log (2 + 0.1 * ((0:ℕ) : ℝ)) * 0.1 := rfl
    have e0 : riemannLiVal 0 = 0 := rfl
    rw [e2, e1, e0]
    norm_num
  have hM2 : logarithmicIntegralVal 2 0.1 2 =
      1 / Real.log 2.05 * 0.1 + 1 / Real.log 2.15 * 0.1 := by
    have e2 : logarithmicIntegralVal 2 0.1 2 =
        logarithmicIntegralVal 2 0.1 1 + 1 / Real.log (2 + 0.1 * ((1:ℕ) : ℝ) + 0.1 / 2) * 0.1 :=
      rfl
    have e1 : logarithmicIntegralVal 2 0.1 1 =
        logarithmicIntegralVal 2 0.1 0 + 1 / Real.log (2 + 0.1 * ((0:ℕ) : ℝ) + 0.1 / 2) * 0.1 :=
      rfl
    have e0 : logarithmicIntegralVal 2 0.1 0 = 0 := rfl
    rw [e2, e1, e0]
    norm_num
  have hlt : logarithmicIntegralVal 2 0.1 2 < riemannLiVal 2 := by
    rw [hL2, hM2]
    have l2 : (0:ℝ) < Real.log 2 := Real.log_pos (by norm_num)
    have l21 : (0:ℝ) < Real.log 2.1 := Real.log_pos (by norm_num)
    have a1 : 1 / Real.log 2.05 < 1 / Real.log 2 :=
      one_div_lt_one_div_of_lt l2 (Real.log_lt_log (by norm_num) (by norm_num))
    have a2 : 1 / Real.log 2.15 < 1 / Real.log 2.1 :=
      one_div_lt_one_div_of_lt l21 (Real.log_lt_log (by norm_num) (by norm_num))
    nlinarith
  have hs : riemannSample 1 = riemannLiVal 2 + waveCorrection (2 + 0.2 * ((1:ℕ) : ℝ)) := by
    show riemannLiVal (2 * 1) + waveCorrection (2 + 0.2 * ((1:ℕ) : ℝ)) = _
    norm_num
  rw [hs]
  intro h
  exact absurd (add_right_cancel h) (ne_of_gt hlt)

/-- C4 amended: each reconstruction sample equals the left-endpoint
quadrature of 1/ln(t) from 2 with step 0.1 plus the sum of the paired wave
corrections over the positive ordinates. -/
theorem riemannSample_decomposition (k : ℕ) :
    riemannSample k = logarithmicIntegralLeftVal 2 0.1 (2 * k) +
      (gammas.map fun g => pairedWave (2 + 0.2 * (k : ℝ)) g).sum := by
  show riemannLiVal (2 * k) + waveCorrection (2 + 0.2 * (k : ℝ)) = _
  rw [riemannLiVal_eq_left, waveCorrection_eq_sum]

/-- The parity branch of the source loop agrees with the odd/even wording of
the specification. -/
theorem etaSum_eq_etaSpec (s : ComplexNumber) : ∀ m : ℕ, etaSum s m = etaSpec s m := by
  intro m
  induction m with
  | zero => rfl
  | succ k ih =>
    have hcode : etaSum s (k + 1) =
        if (k + 1 - 1) % 2 = 1 then
          (etaSum s k).sub ((ComplexNumber.pow ((k + 1 : ℕ) : ℝ) s).inv)
        else (etaSum s k).add ((ComplexNumber.pow ((k + 1 : ℕ) : ℝ) s).inv) := rfl
    have hspec : etaSpec s (k + 1) =
        if Odd (k + 1) then
          (etaSpec s k).add ((ComplexNumber.pow ((k + 1 : ℕ) : ℝ) s).inv)
        else (etaSpec s k).sub ((ComplexNumber.pow ((k + 1 : ℕ) : ℝ) s).inv) := rfl
    rw [hcode, hspec, ih]
    rcases Nat.even_or_odd k with he | ho
    · have hk1 : ¬ (k + 1 - 1) % 2 = 1 := by
        have := Nat.even_iff.mp he
        omega
      have hk2 : Odd (k + 1) := Even.add_one he
      rw [if_neg hk1, if_pos hk2]
    · have hk1 : (k + 1 - 1) % 2 = 1 := by
        have := Nat.odd_iff.mp ho
        omega
      have hk2 : ¬ Odd (k + 1) := by
        have he1 : Even (k + 1) := Odd.add_one ho
        exact Nat.not_odd_iff_even.mpr he1
      rw [if_pos hk1, if_neg hk2]

/-- C1: zeta equals the alternating eta partial sum of the specification
multiplied by the reciprocal of (1,0) - 2^(1 - s.re, -s.im). -/
theorem zeta_eq_spec_formula (s : ComplexNumber) (terms : ℕ) (h : 1 ≤ terms) :
    zeta s terms =
      (etaSpec s terms).multiply
        (((⟨1, 0⟩ : ComplexNumber).sub (ComplexNumber.pow 2 ⟨1 - s.re, -s.im⟩)).inv) := by
  show (etaSum s terms).multiply
      (((⟨1, 0⟩ : ComplexNumber).sub (ComplexNumber.pow 2 ⟨1 - s.re, -s.im⟩)).inv) = _
  rw [etaSum_eq_etaSpec]

/-- Witness for C1 at s = (0, 0), terms = 1. -/
theorem zeta_eq_spec_formula_witness :
    zeta ⟨0, 0⟩ 1 =
      (etaSpec ⟨0, 0⟩ 1).multiply
        (((⟨1, 0⟩ : ComplexNumber).sub
          (ComplexNumber.pow 2
            ⟨1 - (⟨0, 0⟩ : ComplexNumber).re, -(⟨0, 0⟩ : ComplexNumber).im⟩)).inv) :=
  zeta_eq_spec_formula ⟨0, 0⟩ 1 (by norm_num)

/-- Conjugation commutes with the power operation, since cosine is even and
sine is odd. -/
theorem pow_conj (base : ℝ) (e : ComplexNumber) :
    ComplexNumber.pow base ⟨e.re, -e.im⟩ =
      ⟨(ComplexNumber.pow base e).re, -(ComplexNumber.pow base e).im⟩ := by
  simp only [ComplexNumber.pow, neg_mul, Real.cos_neg, Real.sin_neg, mul_neg]

/-- Conjugation commutes with the reciprocal. -/
theorem inv_conj (a : ComplexNumber) :
    ComplexNumber.inv ⟨a.re, -a.im⟩ = ⟨a.inv.re, -a.inv.im⟩ := by
  simp only [ComplexNumber.inv, ComplexNumber.mk.injEq]
  constructor <;> ring

/-- Conjugation commutes with addition. -/
theorem add_conj (a b : ComplexNumber) :
    ComplexNumber.add ⟨a.re, -a.im⟩ ⟨b.re, -b.im⟩ = ⟨(a.add b).re, -(a.add b).im⟩ := by
  simp only [ComplexNumber.add, ComplexNumber.mk.injEq]
  constructor <;> ring

/-- Conjugation commutes with subtraction. -/
theorem sub_conj (a b : ComplexNumber) :
    ComplexNumber.sub ⟨a.re, -a.im⟩ ⟨b.re, -b.im⟩ = ⟨(a.sub b).re, -(a.sub b).im⟩ := by
  simp only [ComplexNumber.sub, ComplexNumber.mk.injEq]
  constructor <;> ring

/-- Conjugation commutes with subtraction from the real value (1, 0). -/
theorem one_sub_conj (b : ComplexNumber) :
    ComplexNumber.sub ⟨1, 0⟩ ⟨b.re, -b.im⟩ =
      ⟨(ComplexNumber.sub ⟨1, 0⟩ b).re, -(ComplexNumber.sub ⟨1, 0⟩ b).im⟩ := by
  simp only [ComplexNumber.sub, ComplexNumber.mk.injEq]
  constructor <;> ring

/-- Conjugation commutes with multiplication. -/
theorem multiply_conj (a b : ComplexNumber) :
    ComplexNumber.multiply ⟨a.re, -a.im⟩ ⟨b.re, -b.im⟩ =
      ⟨(a.multiply b).re, -(a.multiply b).im⟩ := by
  simp only [ComplexNumber.multiply, ComplexNumber.mk.injEq]
  constructor <;> ring

/-- Conjugation commutes with the eta accumulation loop. -/
theorem etaSum_conj (s : ComplexNumber) : ∀ m : ℕ,
    etaSum ⟨s.re, -s.im⟩ m = ⟨(etaSum s m).re, -(etaSum s m).im⟩ := by
  intro m
  induction m with
  | zero =>
    show (⟨0, 0⟩ : ComplexNumber) = ⟨0, -0⟩
    norm_num
  | succ k ih =>
    have hL : etaSum ⟨s.re, -s.im⟩ (k + 1) =
        if (k + 1 - 1) % 2 = 1 then
          (etaSum ⟨s.re, -s.im⟩ k).sub ((ComplexNumber.pow ((k + 1 : ℕ) : ℝ) ⟨s.re, -s.im⟩).inv)
        else
          (etaSum ⟨s.re, -s.im⟩ k).add
            ((ComplexNumber.pow ((k + 1 : ℕ) : ℝ) ⟨s.re, -s.im⟩).inv) := rfl
    have hR : etaSum s (k + 1) =
        if (k + 1 - 1) % 2 = 1 then
          (etaSum s k).sub ((ComplexNumber.pow ((k + 1 : ℕ) : ℝ) s).inv)
        else (etaSum s k).add ((ComplexNumber.pow ((k + 1 : ℕ) : ℝ) s).inv) := rfl
    rw [hL, hR, ih, pow_conj, inv_conj]
    by_cases hc : (k + 1 - 1) % 2 = 1
    · rw [if_pos hc, if_pos hc, sub_conj]
    · rw [if_neg hc, if_neg hc, add_conj]

/-- C10: zeta commutes with complex conjugation of the argument, exactly. -/
theorem zeta_conj_symm (s : ComplexNumber) (terms : ℕ) (h : 1 ≤ terms) :
    zeta ⟨s.re, -s.im⟩ terms = ⟨(zeta s terms).re, -(zeta s terms).im⟩ := by
  have hp := pow_conj 2 ⟨1 - s.re, -s.im⟩
  simp only at hp
  have hL : zeta ⟨s.re, -s.im⟩ terms =
      (etaSum ⟨s.re, -s.im⟩ terms).multiply
        ((ComplexNumber.sub ⟨1, 0⟩ (ComplexNumber.pow 2 ⟨1 - s.re, -(-s.im)⟩)).inv) := rfl
  rw [hL, hp, one_sub_conj, inv_conj, etaSum_conj, multiply_conj]
  rfl

/-- Witness for C10 at s = (0, 0), terms = 1. -/
theorem zeta_conj_symm_witness :
    zeta ⟨(⟨0, 0⟩ : ComplexNumber).re, -(⟨0, 0⟩ : ComplexNumber).im⟩ 1 =
      ⟨(zeta ⟨0, 0⟩ 1).re, -(zeta ⟨0, 0⟩ 1).im⟩ :=
  zeta_conj_symm ⟨0, 0⟩ 1 (by norm_num)

/-- The power (k+1)^(2,0) evaluates to ((k+1)^2, 0). -/
theorem pow_nat_two (k : ℕ) :
    ComplexNumber.pow ((k + 1 : ℕ) : ℝ) ⟨2, 0⟩ = ⟨((k : ℝ) + 1) ^ 2, 0⟩ := by
  unfold ComplexNumber.pow
  have hexp : Real.exp ((2 : ℝ) * Real.log ((k + 1 : ℕ) : ℝ)) = ((k : ℝ) + 1) ^ 2 := by
    have ha : (0 : ℝ) < ((k + 1 : ℕ) : ℝ) := by positivity
    rw [show (2 : ℝ) * Real.log ((k + 1 : ℕ) : ℝ) =
        Real.log ((k + 1 : ℕ) : ℝ) + Real.log ((k + 1 : ℕ) : ℝ) by ring,
      Real.exp_add, Real.exp_log ha]
    push_cast
    ring
  simp only [zero_mul, Real.cos_zero, Real.sin_zero, mul_one, mul_zero, hexp]

/-- The reciprocal of a nonzero real value on the real axis. -/
theorem inv_real (A : ℝ) (hA : A ≠ 0) : ComplexNumber.inv ⟨A, 0⟩ = ⟨1 / A, 0⟩ := by
  unfold ComplexNumber.inv
  simp only [ComplexNumber.mk.injEq, mul_zero, add_zero, neg_zero, zero_div, and_true]
  field_simp

/-- The eta accumulator at s = (2, 0): the alternating partial sum of the
inverse squares appears in the real component. -/
theorem etaSum_two (m : ℕ) :
    etaSum ⟨2, 0⟩ m = ⟨∑ i ∈ Finset.range m, (-1 : ℝ) ^ i * (1 / ((i : ℝ) + 1) ^ 2), 0⟩ := by
  induction m with
  | zero => simp [etaSum]
  | succ k ih =>
    have hstep : etaSum ⟨2, 0⟩ (k + 1) =
        if (k + 1 - 1) % 2 = 1 then
          (etaSum ⟨2, 0⟩ k).sub ((ComplexNumber.pow ((k + 1 : ℕ) : ℝ) ⟨2, 0⟩).inv)
        else (etaSum ⟨2, 0⟩ k).add ((ComplexNumber.pow ((k + 1 : ℕ) : ℝ) ⟨2, 0⟩).inv) := rfl
    have hterm : (ComplexNumber.pow ((k + 1 : ℕ) : ℝ) ⟨2, 0⟩).inv =
        ⟨1 / ((k : ℝ) + 1) ^ 2, 0⟩ := by
      rw [pow_nat_two, inv_real _ (by positivity)]
    rw [hstep, hterm, ih, Finset.sum_range_succ]
    rcases Nat.even_or_odd k with he | ho
    · have hk : ¬ (k + 1 - 1) % 2 = 1 := by
        have := Nat.even_iff.mp he
        omega
      rw [if_neg hk, Even.neg_one_pow he]
      unfold ComplexNumber.add
      simp only [ComplexNumber.mk.injEq]
      constructor <;> ring
    · have hk : (k + 1 - 1) % 2 = 1 := by
        have := Nat.odd_iff.mp ho
        omega
      rw [if_pos hk, Odd.neg_one_pow ho]
      unfold ComplexNumber.sub
      simp only [ComplexNumber.mk.injEq]
      constructor <;> ring

/-- zeta at (2, 0) with 200 terms equals twice the alternating partial sum of
the inverse squares, placed on the real axis. -/
theorem zeta_two_eval :
    zeta ⟨2, 0⟩ 200 =
      ⟨2 * ∑ i ∈ Finset.range 200, (-1 : ℝ) ^ i * (1 / ((i : ℝ) + 1) ^ 2), 0⟩ := by
  have hpow : ComplexNumber.pow 2
      ⟨1 - (⟨2, 0⟩ : ComplexNumber).re, -(⟨2, 0⟩ : ComplexNumber).im⟩ = ⟨(2 : ℝ)⁻¹, 0⟩ := by
    unfold ComplexNumber.pow
    have h1 : ((1 : ℝ) - 2) * Real.log 2 = -Real.log 2 := by ring
    have h2 : Real.exp (-Real.log 2) = (2 : ℝ)⁻¹ := by
      rw [Real.exp_neg, Real.exp_log (by norm_num)]
    have h3 : (-(0 : ℝ)) * Real.log 2 = 0 := by ring
    simp only [h1, h2, h3, Real.cos_zero, Real.sin_zero, mul_one, mul_zero]
  have hz : zeta ⟨2, 0⟩ 200 =
      (etaSum ⟨2, 0⟩ 200).multiply
        ((ComplexNumber.sub ⟨1, 0⟩ (ComplexNumber.pow 2
          ⟨1 - (⟨2, 0⟩ : ComplexNumber).re, -(⟨2, 0⟩ : ComplexNumber).im⟩)).inv) := rfl
  rw [hz, hpow, etaSum_two]
  have hsub : ComplexNumber.sub ⟨1, 0⟩ ⟨(2 : ℝ)⁻¹, 0⟩ = ⟨(2 : ℝ)⁻¹, 0⟩ := by
    unfold ComplexNumber.sub
    norm_num
  rw [hsub, inv_real _ (by norm_num)]
  have hhalf : (1 : ℝ) / (2 : ℝ)⁻¹ = 2 := by norm_num
  rw [hhalf]
  unfold ComplexNumber.multiply
  simp only [ComplexNumber.mk.injEq]
  constructor <;> ring

/-- The alternating series of the inverse squares sums to pi^2/12, derived
from the Basel sum pi^2/6 by splitting even and odd indices. -/
theorem hasSum_eta_two :
    HasSum (fun i : ℕ => (-1 : ℝ) ^ i * (1 / ((i : ℝ) + 1) ^ 2)) (Real.pi ^ 2 / 12) := by
  have hf : HasSum (fun n : ℕ => (1 : ℝ) / ((n : ℝ) + 1) ^ 2) (Real.pi ^ 2 / 6) := by
    have h := (hasSum_nat_add_iff' 1).mpr hasSum_zeta_two
    have h0 : (∑ i ∈ Finset.range 1, (1 : ℝ) / (i : ℝ) ^ 2) = 0 := by norm_num
    rw [h0, sub_zero] at h
    have heq : (fun n : ℕ => (1 : ℝ) / ((n + 1 : ℕ) : ℝ) ^ 2) =
        fun n : ℕ => (1 : ℝ) / ((n : ℝ) + 1) ^ 2 := by
      funext n
      push_cast
      ring
    rwa [heq] at h
  have hodd : HasSum (fun k : ℕ => (1 : ℝ) / (2 * (k : ℝ) + 2) ^ 2) (Real.pi ^ 2 / 24) := by
    have h4 := hf.mul_left ((1 : ℝ) / 4)
    have heq : (fun k : ℕ => (1 : ℝ) / 4 * ((1 : ℝ) / ((k : ℝ) + 1) ^ 2)) =
        fun k : ℕ => (1 : ℝ) / (2 * (k : ℝ) + 2) ^ 2 := by
      funext k
      have hk : ((k : ℝ) + 1) ≠ 0 := by positivity
      have hk2 : (2 * (k : ℝ) + 2) ≠ 0 := by positivity
      field_simp
      ring
    rw [heq] at h4
    convert h4 using 1
    ring
  have hodd2 : HasSum (fun k : ℕ => (1 : ℝ) / (((2 * k + 1 : ℕ) : ℝ) + 1) ^ 2)
      (Real.pi ^ 2 / 24) := by
    have heq : (fun k : ℕ => (1 : ℝ) / (((2 * k + 1 : ℕ) : ℝ) + 1) ^ 2) =
        fun k : ℕ => (1 : ℝ) / (2 * (k : ℝ) + 2) ^ 2 := by
      funext k
      push_cast
      ring
    rw [heq]
    exact hodd
  have hinj : Function.Injective (fun k : ℕ => 2 * k) :=
    mul_right_injective₀ (by norm_num : (2 : ℕ) ≠ 0)
  have hesum : Summable ((fun n : ℕ => (1 : ℝ) / ((n : ℝ) + 1) ^ 2) ∘ fun k : ℕ => 2 * k) :=
    hf.summable.comp_injective hinj
  have hE := hesum.hasSum
  have htot := @HasSum.even_add_odd ℝ _ _
      (tsum ((fun n : ℕ => (1 : ℝ) / ((n : ℝ) + 1) ^ 2) ∘ fun k : ℕ => 2 * k))
      (Real.pi ^ 2 / 24) _ (fun n : ℕ => (1 : ℝ) / ((n : ℝ) + 1) ^ 2) hE hodd2
  have hAval := htot.unique hf
  have geven : HasSum (fun k : ℕ => (-1 : ℝ) ^ (2 * k) * (1 / (((2 * k : ℕ) : ℝ) + 1) ^ 2))
      (tsum ((fun n : ℕ => (1 : ℝ) / ((n : ℝ) + 1) ^ 2) ∘ fun k : ℕ => 2 * k)) := by
    have heq : (fun k : ℕ => (-1 : ℝ) ^ (2 * k) * (1 / (((2 * k : ℕ) : ℝ) + 1) ^ 2)) =
        ((fun n : ℕ => (1 : ℝ) / ((n : ℝ) + 1) ^ 2) ∘ fun k : ℕ => 2 * k) := by
      funext k
      have hone : (-1 : ℝ) ^ (2 * k) = 1 := Even.neg_one_pow ⟨k, by ring⟩
      simp [Function.comp, hone]
    rw [heq]
    exact hE
  have godd : HasSum (fun k : ℕ => (-1 : ℝ) ^ (2 * k + 1) * (1 / (((2 * k + 1 : ℕ) : ℝ) + 1) ^ 2))
      (-(Real.pi ^ 2 / 24)) := by
    have heq : (fun k : ℕ =>
        (-1 : ℝ) ^ (2 * k + 1) * (1 / (((2 * k + 1 : ℕ) : ℝ) + 1) ^ 2)) =
        fun k : ℕ => -((1 : ℝ) / (((2 * k + 1 : ℕ) : ℝ) + 1) ^ 2) := by
      funext k
      have hone : (-1 : ℝ) ^ (2 * k + 1) = -1 := Odd.neg_one_pow ⟨k, by ring⟩
      rw [hone]
      ring
    rw [heq]
    exact hodd2.neg
  have hg := @HasSum.even_add_odd ℝ _ _
      (tsum ((fun n : ℕ => (1 : ℝ) / ((n : ℝ) + 1) ^ 2) ∘ fun k : ℕ => 2 * k))
      (-(Real.pi ^ 2 / 24)) _ (fun i : ℕ => (-1 : ℝ) ^ i * (1 / ((i : ℝ) + 1) ^ 2)) geven godd
  have hfin : (tsum ((fun n : ℕ => (1 : ℝ) / ((n : ℝ) + 1) ^ 2) ∘ fun k : ℕ => 2 * k)) +
      -(Real.pi ^ 2 / 24) = Real.pi ^ 2 / 12 := by linarith
  rwa [hfin] at hg

/-- Bracketing of the 200-term alternating partial sum around pi^2/12, with
error at most the next term 1/201^2. -/
theorem eta_two_partial_bounds :
    (∑ i ∈ Finset.range 200, (-1 : ℝ) ^ i * (1 / ((i : ℝ) + 1) ^ 2)) ≤ Real.pi ^ 2 / 12 ∧
      Real.pi ^ 2 / 12 ≤
        (∑ i ∈ Finset.range 200, (-1 : ℝ) ^ i * (1 / ((i : ℝ) + 1) ^ 2)) + 1 / 201 ^ 2 := by
  have hanti : Antitone (fun i : ℕ => (1 : ℝ) / ((i : ℝ) + 1) ^ 2) := by
    intro a b hab
    have h1 : ((a : ℝ) + 1) ≤ (b : ℝ) + 1 := by
      have hc : (a : ℝ) ≤ b := by exact_mod_cast hab
      linarith
    show (1 : ℝ) / ((b : ℝ) + 1) ^ 2 ≤ 1 / ((a : ℝ) + 1) ^ 2
    gcongr
  have ht := hasSum_eta_two.tendsto_sum_nat
  have h1 := hanti.alternating_series_le_tendsto ht 100
  have h2 := hanti.tendsto_le_alternating_series ht 100
  rw [Finset.sum_range_succ] at h2
  have hidx : (2 * 100 : ℕ) = 200 := by norm_num
  rw [hidx] at h1 h2
  have hlast : (-1 : ℝ) ^ (200 : ℕ) * (1 / (((200 : ℕ) : ℝ) + 1) ^ 2) = 1 / 201 ^ 2 := by
    norm_num
  rw [hlast] at h2
  exact ⟨h1, h2⟩

/-- C2: zeta((2,0), 200) has real part within 1e-2 of pi^2/6 and imaginary
part within 1e-2 of 0. -/
theorem zeta_two_near_pi_sq_div_six :
    |(zeta ⟨2, 0⟩ 200).re - Real.pi ^ 2 / 6| < 1 / 100 ∧
      |(zeta ⟨2, 0⟩ 200).im - 0| < 1 / 100 := by
  rw [zeta_two_eval]
  obtain ⟨hle, hge⟩ := eta_two_partial_bounds
  have hnum : (2 : ℝ) * (1 / 201 ^ 2) < 1 / 100 := by norm_num
  constructor
  · show |2 * (∑ i ∈ Finset.range 200, (-1 : ℝ) ^ i * (1 / ((i : ℝ) + 1) ^ 2)) -
      Real.pi ^ 2 / 6| < 1 / 100
    rw [abs_lt]
    constructor <;> linarith
  · show |(0 : ℝ) - 0| < 1 / 100
    norm_num

end VisualizeZeta
